import Mathlib

/-!
Verification of the CastleClashClient binary-protocol client.

This development shallowly embeds the Python sources of the repository:

* `src/castleclashclient/io/natives.py`      — `SizedString`, `SizedBytes`, `CString`
* `src/castleclashclient/io/binstruct.py`    — `BinaryStruct.from_bytes` / `to_bytes` / `sizeof`
* `src/castleclashclient/network/crypto/__init__.py`   — `CryptoManager`
* `src/castleclashclient/network/packets/__init__.py`  — `CCMessageRegistry`
* `src/castleclashclient/network/packets/client.py` and `server.py` — the packet catalog
* `src/castleclashclient/network/network_client.py`    — `pick_message`, `handler_03f6`

Python `bytes` values are modelled as `List Nat` (entries intended `< 256`),
Python `str` values as `List Nat` of Unicode code points.  Fallible Python code
(code that can raise) is modelled with `Option`/`Except`.
-/

namespace CastleClash

/-! ## Byte-level helpers -/

/-- Little-endian interpretation of a byte list, as produced by
`struct.unpack` with format codes `H`/`I`/`Q` (byte order `<`). -/
def leNat : List Nat → Nat
  | [] => 0
  | b :: rest => b + 256 * leNat rest

/-- Little-endian encoding of `v` on `w` bytes, as produced by `struct.pack`
with byte order `<` (the caller must have `v < 256 ^ w`, which `struct.pack`
enforces by raising `struct.error` otherwise). -/
def leBytes : Nat → Nat → List Nat
  | 0, _ => []
  | w + 1, v => v % 256 :: leBytes w (v / 256)

theorem leBytes_length (w v : Nat) : (leBytes w v).length = w := by
  induction w generalizing v with
  | zero => rfl
  | succ w ih => simp [leBytes, ih]

theorem leNat_leBytes (w v : Nat) (h : v < 256 ^ w) : leNat (leBytes w v) = v := by
  induction w generalizing v with
  | zero => simp_all [leBytes, leNat, Nat.lt_one_iff.mp h]
  | succ w ih =>
    have hv : v / 256 < 256 ^ w := by
      rw [Nat.div_lt_iff_lt_mul (by norm_num)]
      calc v < 256 ^ (w + 1) := h
        _ = 256 ^ w * 256 := by ring
    simp [leBytes, leNat, ih _ hv, Nat.mod_add_div]

/-- `bytes.rstrip(b"\x00")` / `str.rstrip("\x00")`: remove trailing zero
entries. -/
def rstripZeros (l : List Nat) : List Nat :=
  (l.reverse.dropWhile (· == 0)).reverse

/-- `lstrip` of zero entries. -/
def lstripZeros (l : List Nat) : List Nat :=
  l.dropWhile (· == 0)

/-- `str.strip("\x00")`: remove zero entries from both ends. -/
def stripZeros (l : List Nat) : List Nat :=
  rstripZeros (lstripZeros l)

theorem dropWhile_zeros_replicate_append (k : Nat) (l : List Nat) :
    List.dropWhile (· == 0) (List.replicate k 0 ++ l) = List.dropWhile (· == 0) l := by
  induction k with
  | zero => rfl
  | succ k ih => simp [List.replicate_succ, List.dropWhile, ih]

theorem rstripZeros_append_replicate (s : List Nat) (k : Nat) :
    rstripZeros (s ++ List.replicate k 0) = rstripZeros s := by
  unfold rstripZeros
  rw [List.reverse_append, List.reverse_replicate, dropWhile_zeros_replicate_append]

theorem dropWhile_zeros_eq_self (l : List Nat) (h : ∀ c ∈ l, c ≠ 0) :
    l.dropWhile (· == 0) = l := by
  cases l with
  | nil => rfl
  | cons b t =>
    have hb : (b == 0) = false := by simpa using h b (by simp)
    simp [List.dropWhile, hb]

theorem rstripZeros_of_ne_zero (s : List Nat) (h : ∀ c ∈ s, c ≠ 0) :
    rstripZeros s = s := by
  unfold rstripZeros
  rw [dropWhile_zeros_eq_self _ (fun c hc => h c (List.mem_reverse.mp hc)),
    List.reverse_reverse]

theorem lstripZeros_of_ne_zero (s : List Nat) (h : ∀ c ∈ s, c ≠ 0) :
    lstripZeros s = s := by
  unfold lstripZeros
  rw [dropWhile_zeros_eq_self _ h]

theorem stripZeros_of_ne_zero (s : List Nat) (h : ∀ c ∈ s, c ≠ 0) :
    stripZeros s = s := by
  unfold stripZeros
  rw [lstripZeros_of_ne_zero s h, rstripZeros_of_ne_zero s h]

/-- `bytes.split(b"\x00")`: split on every zero byte.  For `n` zero bytes the
result has `n + 1` pieces (Python `split` with an explicit separator). -/
def splitOnZero : List Nat → List (List Nat)
  | [] => [[]]
  | 0 :: rest => [] :: splitOnZero rest
  | b :: rest =>
    match splitOnZero rest with
    | h :: t => (b :: h) :: t
    | [] => [[b]]

theorem splitOnZero_ne_nil (l : List Nat) : splitOnZero l ≠ [] := by
  induction l with
  | nil => simp [splitOnZero]
  | cons b rest ih =>
    match b, rest with
    | 0, rest => simp [splitOnZero]
    | b + 1, rest =>
      simp only [splitOnZero]
      split <;> simp_all

theorem splitOnZero_of_ne_zero (l : List Nat) (h : ∀ c ∈ l, c ≠ 0) :
    splitOnZero l = [l] := by
  induction l with
  | nil => rfl
  | cons b rest ih =>
    have hb : b ≠ 0 := h b (by simp)
    match b, hb with
    | b + 1, _ =>
      have := ih (fun c hc => h c (by simp [hc]))
      simp only [splitOnZero]
      rw [this]

theorem splitOnZero_append_zero (pre post : List Nat) (h : ∀ c ∈ pre, c ≠ 0) :
    splitOnZero (pre ++ 0 :: post) = pre :: splitOnZero post := by
  induction pre with
  | nil => rfl
  | cons b rest ih =>
    have hb : b ≠ 0 := h b (by simp)
    match b, hb with
    | b + 1, _ =>
      have := ih (fun c hc => h c (by simp [hc]))
      simp only [List.cons_append, splitOnZero, List.append_eq]
      rw [this]

theorem splitOnZero_head_takeWhile (l : List Nat) :
    ∃ t, splitOnZero l = l.takeWhile (· != 0) :: t := by
  induction l with
  | nil => exact ⟨[], rfl⟩
  | cons b rest ih =>
    match b with
    | 0 => exact ⟨splitOnZero rest, by simp [splitOnZero, List.takeWhile]⟩
    | b + 1 =>
      obtain ⟨t, ht⟩ := ih
      refine ⟨t, ?_⟩
      simp only [splitOnZero, ht, List.takeWhile]
      simp

/-! ## UTF-8 (Python `bytes.decode("utf-8")` / `str.encode("utf-8")` / `str.encode("ascii")`) -/

/-- UTF-8 encoding of a single Unicode code point (Python `str` characters are
always valid code points). -/
def utf8EncodeChar (c : Nat) : List Nat :=
  if c < 0x80 then [c]
  else if c < 0x800 then [0xC0 + c / 64, 0x80 + c % 64]
  else if c < 0x10000 then [0xE0 + c / 4096, 0x80 + c / 64 % 64, 0x80 + c % 64]
  else [0xF0 + c / 262144, 0x80 + c / 4096 % 64, 0x80 + c / 64 % 64, 0x80 + c % 64]

/-- `str.encode("utf-8")`. -/
def utf8Encode (s : List Nat) : List Nat :=
  (s.map utf8EncodeChar).flatten

/-- Decode one UTF-8 character off the front of a byte list, strict as Python
is: rejects stray continuation bytes, overlong forms, surrogates and code
points above `0x10FFFF`.  Returns the code point and the remaining bytes. -/
def utf8DecodeChar : List Nat → Option (Nat × List Nat)
  | [] => none
  | b0 :: rest =>
    if b0 < 0x80 then some (b0, rest)
    else if b0 < 0xC2 then none
    else if b0 < 0xE0 then
      match rest with
      | b1 :: rest2 =>
        if 0x80 ≤ b1 ∧ b1 < 0xC0 then
          some ((b0 - 0xC0) * 64 + (b1 - 0x80), rest2)
        else none
      | [] => none
    else if b0 < 0xF0 then
      match rest with
      | b1 :: b2 :: rest2 =>
        if 0x80 ≤ b1 ∧ b1 < 0xC0 ∧ 0x80 ≤ b2 ∧ b2 < 0xC0 then
          let c := (b0 - 0xE0) * 4096 + (b1 - 0x80) * 64 + (b2 - 0x80)
          if 0x800 ≤ c ∧ ¬(0xD800 ≤ c ∧ c ≤ 0xDFFF) then some (c, rest2) else none
        else none
      | _ => none
    else if b0 < 0xF5 then
      match rest with
      | b1 :: b2 :: b3 :: rest2 =>
        if 0x80 ≤ b1 ∧ b1 < 0xC0 ∧ 0x80 ≤ b2 ∧ b2 < 0xC0 ∧ 0x80 ≤ b3 ∧ b3 < 0xC0 then
          let c := (b0 - 0xF0) * 262144 + (b1 - 0x80) * 4096 +
            (b2 - 0x80) * 64 + (b3 - 0x80)
          if 0x10000 ≤ c ∧ c ≤ 0x10FFFF then some (c, rest2) else none
        else none
      | _ => none
    else none

theorem utf8DecodeChar_rest_length {l : List Nat} {c : Nat} {rest2 : List Nat}
    (h : utf8DecodeChar l = some (c, rest2)) : rest2.length < l.length := by
  match l with
  | [] => simp [utf8DecodeChar] at h
  | b0 :: rest =>
    simp only [utf8DecodeChar] at h
    repeat' split at h
    all_goals simp only [Option.some.injEq, Prod.mk.injEq, reduceCtorEq] at h
    all_goals obtain ⟨-, rfl⟩ := h
    all_goals simp only [List.length_cons]
    all_goals omega

/-- The character loop of `bytes.decode("utf-8")`, with an explicit fuel
bound so that the recursion is structural (the byte length is always enough
fuel, since every character consumes at least one byte). -/
def utf8DecodeLoop : Nat → List Nat → Option (List Nat)
  | _, [] => some []
  | 0, _ :: _ => none
  | fuel + 1, l =>
    match utf8DecodeChar l with
    | none => none
    | some (c, rest2) => (utf8DecodeLoop fuel rest2).map (c :: ·)

/-- `bytes.decode("utf-8")`, strict. -/
def utf8Decode (l : List Nat) : Option (List Nat) :=
  utf8DecodeLoop l.length l

theorem utf8DecodeLoop_fuel_irrel (f1 : Nat) :
    ∀ f2 l, l.length ≤ f1 → l.length ≤ f2 →
      utf8DecodeLoop f1 l = utf8DecodeLoop f2 l := by
  induction f1 with
  | zero =>
    intro f2 l h1 _
    match l with
    | [] => cases f2 <;> rfl
    | _ :: _ => simp at h1
  | succ f1 ih =>
    intro f2 l h1 h2
    match l with
    | [] => cases f2 <;> rfl
    | b :: t =>
      match f2, h2 with
      | f2 + 1, h2 =>
        match hd : utf8DecodeChar (b :: t) with
        | none => simp [utf8DecodeLoop, hd]
        | some (c, rest2) =>
          have hlt := utf8DecodeChar_rest_length hd
          simp only [List.length_cons] at h1 h2 hlt
          simp only [utf8DecodeLoop, hd]
          rw [ih f2 rest2 (by omega) (by omega)]

/-- `str.encode("ascii")`: identity on the code points when they are all below
128, `UnicodeEncodeError` (modelled by `none`) otherwise. -/
def asciiEncode (s : List Nat) : Option (List Nat) :=
  if s.all (· < 128) then some s else none

theorem utf8EncodeChar_ascii (c : Nat) (h : c < 128) : utf8EncodeChar c = [c] := by
  simp [utf8EncodeChar, h]

theorem utf8Encode_ascii (s : List Nat) (h : ∀ c ∈ s, c < 128) :
    utf8Encode s = s := by
  induction s with
  | nil => rfl
  | cons c t ih =>
    have := ih (fun x hx => h x (by simp [hx]))
    simp only [utf8Encode, List.map_cons, List.flatten_cons] at *
    rw [utf8EncodeChar_ascii c (h c (by simp)), this]
    rfl

theorem utf8DecodeChar_ascii (b0 : Nat) (rest : List Nat) (h : b0 < 128) :
    utf8DecodeChar (b0 :: rest) = some (b0, rest) := by
  simp [utf8DecodeChar, h]

/-- Decoding one character and re-encoding it restores exactly the bytes
consumed: the strict checks make every accepted byte form canonical. -/
theorem utf8EncodeChar_decodeChar {l : List Nat} {c : Nat} {rest2 : List Nat}
    (h : utf8DecodeChar l = some (c, rest2)) : utf8EncodeChar c ++ rest2 = l := by
  match l with
  | [] => simp [utf8DecodeChar] at h
  | b0 :: rest =>
    simp only [utf8DecodeChar] at h
    repeat' split at h
    all_goals simp only [Option.some.injEq, Prod.mk.injEq, reduceCtorEq] at h
    all_goals obtain ⟨rfl, rfl⟩ := h
    all_goals unfold utf8EncodeChar
    · rw [if_pos (by omega)]; rfl
    · rw [if_neg (by omega), if_pos (by omega)]
      simp only [List.cons_append, List.nil_append, List.cons.injEq, and_true]
      omega
    · rw [if_neg (by omega), if_neg (by omega), if_pos (by omega)]
      simp only [List.cons_append, List.nil_append, List.cons.injEq, and_true]
      omega
    · rw [if_neg (by omega), if_neg (by omega), if_neg (by omega)]
      simp only [List.cons_append, List.nil_append, List.cons.injEq, and_true]
      omega

theorem utf8Decode_nil : utf8Decode [] = some [] := rfl

theorem utf8Decode_cons {l : List Nat} {c : Nat} {rest2 : List Nat}
    (h : utf8DecodeChar l = some (c, rest2)) :
    utf8Decode l = (utf8Decode rest2).map (c :: ·) := by
  match l with
  | [] => simp [utf8DecodeChar] at h
  | b :: t =>
    have hlt := utf8DecodeChar_rest_length h
    simp only [List.length_cons] at hlt
    unfold utf8Decode
    simp only [List.length_cons, utf8DecodeLoop, h]
    rw [utf8DecodeLoop_fuel_irrel t.length rest2.length rest2 (by omega) (le_refl _)]

theorem utf8Decode_none_of_decodeChar_none {l : List Nat} (hne : l ≠ [])
    (h : utf8DecodeChar l = none) : utf8Decode l = none := by
  match l with
  | [] => exact absurd rfl hne
  | b :: t =>
    unfold utf8Decode
    simp only [List.length_cons, utf8DecodeLoop, h]

theorem utf8Decode_ascii (s : List Nat) (h : ∀ c ∈ s, c < 128) :
    utf8Decode s = some s := by
  induction s with
  | nil => exact utf8Decode_nil
  | cons c t ih =>
    have ht := ih (fun x hx => h x (by simp [hx]))
    rw [utf8Decode_cons (utf8DecodeChar_ascii c t (h c (by simp)))]
    simp [ht]

/-- Re-encoding a successfully decoded byte string restores it exactly. -/
theorem utf8Encode_of_decode (bs s : List Nat) (h : utf8Decode bs = some s) :
    utf8Encode s = bs := by
  generalize hn : bs.length = n at *
  induction n using Nat.strong_induction_on generalizing bs s with
  | _ n ih =>
    match hd : utf8DecodeChar bs with
    | none =>
      match bs with
      | [] =>
        rw [utf8Decode_nil] at h
        simp only [Option.some.injEq] at h
        subst h
        rfl
      | b :: t => rw [utf8Decode_none_of_decodeChar_none (by simp) hd] at h; simp at h
    | some (c, rest2) =>
      rw [utf8Decode_cons hd] at h
      simp only [Option.map_eq_some'] at h
      obtain ⟨s', hs', rfl⟩ := h
      have hlt : rest2.length < n := hn ▸ utf8DecodeChar_rest_length hd
      have henc := ih rest2.length hlt rest2 s' hs' rfl
      have hcat := utf8EncodeChar_decodeChar hd
      calc utf8Encode (c :: s') = utf8EncodeChar c ++ utf8Encode s' := by
            simp [utf8Encode]
        _ = utf8EncodeChar c ++ rest2 := by rw [henc]
        _ = bs := hcat

/-- A decoded string never has more characters than the input has bytes. -/
theorem utf8Decode_length_le (bs s : List Nat) (h : utf8Decode bs = some s) :
    s.length ≤ bs.length := by
  generalize hn : bs.length = n at *
  induction n using Nat.strong_induction_on generalizing bs s with
  | _ n ih =>
    match hd : utf8DecodeChar bs with
    | none =>
      match bs with
      | [] =>
        rw [utf8Decode_nil] at h
        simp only [Option.some.injEq] at h
        subst h
        simp
      | b :: t => rw [utf8Decode_none_of_decodeChar_none (by simp) hd] at h; simp at h
    | some (c, rest2) =>
      rw [utf8Decode_cons hd] at h
      simp only [Option.map_eq_some'] at h
      obtain ⟨s', hs', rfl⟩ := h
      have hlt : rest2.length < n := hn ▸ utf8DecodeChar_rest_length hd
      have := ih rest2.length hlt rest2 s' hs' rfl
      simp only [List.length_cons]
      omega

/-! ## `io/natives.py` -/

/-- `SizedString.__new__(value, size)`: raises `ValueError` when the value is
longer (in characters) than the declared size, left-justifies with NUL
characters (`ljust`) when shorter. -/
def sizedStringNew (value : List Nat) (size : Nat) : Option (List Nat) :=
  if value.length > size then none
  else some (value ++ List.replicate (size - value.length) 0)

/-- Constructing a `SizedString` and calling `to_bytes` (UTF-8 encode). -/
def sizedStringEncode (value : List Nat) (size : Nat) : Option (List Nat) :=
  (sizedStringNew value size).map utf8Encode

/-- `SizedString.from_bytes(chunk, size).value()`: UTF-8 decode the chunk,
build the sized string (padding to `size` characters), then strip the NUL
characters after the last non-NUL character. -/
def sizedStringFromBytesValue (chunk : List Nat) (size : Nat) : Option (List Nat) :=
  match utf8Decode chunk with
  | none => none
  | some s => (sizedStringNew s size).map rstripZeros

/-- `SizedBytes.__new__(value, size)`. -/
def sizedBytesNew (value : List Nat) (size : Nat) : Option (List Nat) :=
  if value.length > size then none
  else some (value ++ List.replicate (size - value.length) 0)

/-- A `CString` instance: the logical string, the `expected_size` recorded at
construction, and the `unknown_data` attached by `from_bytes`. -/
structure CStringVal where
  chars : List Nat
  expectedSize : Nat
  unknownData : List Nat
deriving DecidableEq

/-- `CString.__new__(value, expected_size)`. -/
def cstringNew (value : List Nat) (expectedSize : Nat) : Except String CStringVal :=
  if 0 < expectedSize ∧ expectedSize < value.length then
    .error "ValueError: String is too long"
  else .ok ⟨value, expectedSize, []⟩

/-- `CString.from_bytes`: split the input on every zero byte, UTF-8 decode the
first piece as the logical string, construct the instance, and only then
record the second piece as `unknown_data`.  The failure order follows the
source: `items[0].decode("utf-8")` is evaluated first (it can raise
`UnicodeDecodeError`), then the constructor runs, and only afterwards the
subscript `items[1]` raises `IndexError` when the input held no zero byte.
(`items[0]` itself always exists: Python `split` never returns an empty
list, and `splitOnZero` never returns `[]`, so `headD` is exact.) -/
def cstringFromBytes (value : List Nat) : Except String CStringVal :=
  let items := splitOnZero value
  let i0 := items.headD []
  match utf8Decode i0 with
  | none => .error "UnicodeDecodeError"
  | some s =>
    match cstringNew s i0.length with
    | .error e => .error e
    | .ok c =>
      match items with
      | _ :: i1 :: _ => .ok { c with unknownData := i1 }
      | _ => .error "IndexError: list index out of range"

/-- `CString.to_bytes`: the UTF-8 encoding of the string plus one zero byte.
The attached `unknown_data` is not re-emitted. -/
def cstringToBytes (c : CStringVal) : List Nat :=
  utf8Encode c.chars ++ [0]

/-- `CString.value()`: the string with NUL characters stripped from both
ends. -/
def cstringValue (c : CStringVal) : List Nat :=
  stripZeros c.chars

/-! ## `io/binstruct.py` — the generic fixed-portion codec

The packet catalog only uses these token shapes: unsigned little-endian
integers (`H`, `I`, `Q`) and `Ns` byte chunks whose dataclass annotation is a
`SizedString`, `SizedBytes` or `CString` instance (the annotation drives the
`on_unpack` hook on decode; on encode the stored plain values take the
fall-through `struct.pack` path of `to_bytes`). -/

inductive FieldDesc where
  | uint : Nat → FieldDesc
  | sstr : Nat → FieldDesc
  | sbytes : Nat → FieldDesc
  | cstr : Nat → FieldDesc
deriving DecidableEq

/-- A field value of a message instance: Python `int`, `str` (code points) or
`bytes`. -/
inductive FieldVal where
  | vint : Nat → FieldVal
  | vstr : List Nat → FieldVal
  | vbytes : List Nat → FieldVal
deriving DecidableEq

/-- `struct.calcsize` of a single token (byte order `<`: no padding). -/
def fieldWidth : FieldDesc → Nat
  | .uint w => w
  | .sstr n => n
  | .sbytes n => n
  | .cstr n => n

/-- `struct.calcsize(STRUCT_FORMAT)`. -/
def calcsize (descs : List FieldDesc) : Nat :=
  (descs.map fieldWidth).sum

/-- Decoding one fixed field of `BinaryStruct.from_bytes`: the `on_unpack`
hook handles `SizedString`/`SizedBytes`/`CString`-annotated fields (returning
the stripped logical value), integer fields go through `struct.unpack`. -/
def decodeField : FieldDesc → List Nat → Option FieldVal
  | .uint _, chunk => some (.vint (leNat chunk))
  | .sstr n, chunk => (sizedStringFromBytesValue chunk n).map .vstr
  | .sbytes _, chunk => some (.vbytes (rstripZeros chunk))
  | .cstr _, chunk =>
    match cstringFromBytes chunk with
    | .ok c => some (.vstr (cstringValue c))
    | .error _ => none

/-- `struct.pack` of one `Ns` token: zero-pad to `n` bytes, silently truncate
beyond `n`. -/
def packPad (n : Nat) (b : List Nat) : List Nat :=
  b.take n ++ List.replicate (n - b.length) 0

/-- Encoding one fixed field of `BinaryStruct.to_bytes`: for the plain values
held by constructed/decoded instances the `on_pack` hook returns `None`, so a
`str` under an `Ns` token is `ascii`-encoded and packed, `bytes` are packed
directly, and integers go through `struct.pack` (which raises when out of
range). -/
def encodeField : FieldDesc → FieldVal → Option (List Nat)
  | .uint w, .vint v => if v < 256 ^ w then some (leBytes w v) else none
  | .uint _, _ => none
  | .sstr n, .vstr s => (asciiEncode s).map (packPad n)
  | .sstr n, .vbytes b => some (packPad n b)
  | .sstr _, .vint _ => none
  | .sbytes n, .vstr s => (asciiEncode s).map (packPad n)
  | .sbytes n, .vbytes b => some (packPad n b)
  | .sbytes _, .vint _ => none
  | .cstr n, .vstr s => (asciiEncode s).map (packPad n)
  | .cstr n, .vbytes b => some (packPad n b)
  | .cstr _, .vint _ => none

/-- The chunk-slicing loop of `BinaryStruct.from_bytes` (the upfront length
check has already passed, so every chunk is full). -/
def structDecodeGo : List FieldDesc → List Nat → Option (List FieldVal)
  | [], _ => some []
  | d :: ds, data =>
    match decodeField d (data.take (fieldWidth d)),
      structDecodeGo ds (data.drop (fieldWidth d)) with
    | some v, some vs => some (v :: vs)
    | _, _ => none

/-- The fixed portion of `BinaryStruct.from_bytes`: raises `ValueError` when
the input is shorter than the combined token width, otherwise walks the
tokens slicing one chunk per field.  Bytes beyond the fixed portion are left
to the caller (`on_remaining`, or logged and ignored). -/
def structDecode (descs : List FieldDesc) (data : List Nat) : Option (List FieldVal) :=
  if data.length < calcsize descs then none else structDecodeGo descs data

/-- The fixed portion of `BinaryStruct.to_bytes`: encode each field in order
and concatenate. -/
def structEncode : List FieldDesc → List FieldVal → Option (List Nat)
  | [], [] => some []
  | d :: ds, v :: vs =>
    match encodeField d v, structEncode ds vs with
    | some b, some bs => some (b ++ bs)
    | _, _ => none
  | _, _ => none

/-- Size and byte-shape constraints under which a field value survives the
encode/decode round trip: integers within the token range, strings ASCII with
no trailing NUL (the normalized shape `from_bytes` itself produces), bytes
with no trailing zero, lengths within the declared size (strictly within for
a `CString` field, whose decoder needs the padding zero), and `CString`
content free of NUL characters. -/
def validField : FieldDesc → FieldVal → Bool
  | .uint w, .vint v => v < 256 ^ w
  | .sstr n, .vstr s => s.length ≤ n && s.all (· < 128) && (rstripZeros s == s)
  | .sbytes n, .vbytes b => b.length ≤ n && b.all (· < 256) && (rstripZeros b == b)
  | .cstr n, .vstr s => s.length < n && s.all (fun c => 0 < c && c < 128)
  | _, _ => false

def validVals : List FieldDesc → List FieldVal → Bool
  | [], [] => true
  | d :: ds, v :: vs => validField d v && validVals ds vs
  | _, _ => false

theorem takeWhile_ne_replicate_zero (k : Nat) :
    List.takeWhile (· != 0) (List.replicate k 0) = [] := by
  cases k <;> simp [List.replicate_succ, List.takeWhile]

/-- A valid field value encodes to exactly its token width and decodes back to
itself. -/
theorem decodeField_encodeField (d : FieldDesc) (v : FieldVal)
    (h : validField d v = true) :
    ∃ b, encodeField d v = some b ∧ b.length = fieldWidth d ∧
      decodeField d b = some v := by
  match d, v with
  | .uint w, .vint v =>
    have hv : v < 256 ^ w := by simpa [validField] using h
    refine ⟨leBytes w v, ?_, leBytes_length w v, ?_⟩
    · simp [encodeField, hv]
    · simp [decodeField, leNat_leBytes w v hv]
  | .sstr n, .vstr s =>
    obtain ⟨⟨hlen, hascii⟩, hnorm⟩ :
        (s.length ≤ n ∧ ∀ c ∈ s, c < 128) ∧ rstripZeros s = s := by
      simpa [validField, List.all_eq_true] using h
    have hpad : packPad n s = s ++ List.replicate (n - s.length) 0 := by
      simp [packPad, List.take_of_length_le hlen]
    have hasc : s.all (· < 128) = true := by
      simp only [List.all_eq_true, decide_eq_true_eq]
      exact hascii
    refine ⟨packPad n s, ?_, ?_, ?_⟩
    · simp [encodeField, asciiEncode, hasc]
    · simp [hpad, fieldWidth]; omega
    · have hall : ∀ c ∈ s ++ List.replicate (n - s.length) 0, c < 128 := by
        intro c hc
        rcases List.mem_append.mp hc with hc | hc
        · exact hascii c hc
        · simp [List.eq_of_mem_replicate hc]
      have hlength : (s ++ List.replicate (n - s.length) 0).length = n := by
        simp; omega
      simp only [decodeField, sizedStringFromBytesValue, hpad,
        utf8Decode_ascii _ hall, sizedStringNew, hlength]
      rw [if_neg (by omega)]
      simp [rstripZeros_append_replicate, hnorm]
  | .sbytes n, .vbytes b =>
    obtain ⟨⟨hlen, -⟩, hnorm⟩ :
        (b.length ≤ n ∧ ∀ c ∈ b, c < 256) ∧ rstripZeros b = b := by
      simpa [validField, List.all_eq_true] using h
    have hpad : packPad n b = b ++ List.replicate (n - b.length) 0 := by
      simp [packPad, List.take_of_length_le hlen]
    refine ⟨packPad n b, ?_, ?_, ?_⟩
    · simp [encodeField]
    · simp [hpad, fieldWidth]; omega
    · simp [decodeField, hpad, rstripZeros_append_replicate, hnorm]
  | .cstr n, .vstr s =>
    obtain ⟨hlen, hcs⟩ : s.length < n ∧ ∀ c ∈ s, 0 < c ∧ c < 128 := by
      simpa [validField, List.all_eq_true] using h
    have hascii : ∀ c ∈ s, c < 128 := fun c hc => (hcs c hc).2
    have hne : ∀ c ∈ s, c ≠ 0 := fun c hc => by have := (hcs c hc).1; omega
    have hpad : packPad n s = s ++ List.replicate (n - s.length) 0 := by
      simp [packPad, List.take_of_length_le (le_of_lt hlen)]
    obtain ⟨k, hk⟩ : ∃ k, n - s.length = k + 1 := ⟨n - s.length - 1, by omega⟩
    have hasc : s.all (· < 128) = true := by
      simp only [List.all_eq_true, decide_eq_true_eq]
      exact hascii
    refine ⟨packPad n s, ?_, ?_, ?_⟩
    · simp [encodeField, asciiEncode, hasc]
    · simp [hpad, fieldWidth]; omega
    · obtain ⟨t, ht⟩ := splitOnZero_head_takeWhile (List.replicate k 0)
      rw [takeWhile_ne_replicate_zero] at ht
      have hsplit : splitOnZero (packPad n s) = s :: [] :: t := by
        rw [hpad, hk, List.replicate_succ, splitOnZero_append_zero s _ hne, ht]
      simp only [decodeField, cstringFromBytes, hsplit, List.headD_cons,
        utf8Decode_ascii s hascii, cstringNew]
      rw [if_neg (by omega)]
      simp [cstringValue, stripZeros_of_ne_zero s hne]
  | .uint _, .vstr _ => simp [validField] at h
  | .uint _, .vbytes _ => simp [validField] at h
  | .sstr _, .vint _ => simp [validField] at h
  | .sstr _, .vbytes _ => simp [validField] at h
  | .sbytes _, .vint _ => simp [validField] at h
  | .sbytes _, .vstr _ => simp [validField] at h
  | .cstr _, .vint _ => simp [validField] at h
  | .cstr _, .vbytes _ => simp [validField] at h

theorem validVals_nil_iff (vals : List FieldVal) :
    validVals [] vals = true ↔ vals = [] := by
  cases vals <;> simp [validVals]

theorem validVals_cons_iff (d : FieldDesc) (ds : List FieldDesc)
    (vals : List FieldVal) :
    validVals (d :: ds) vals = true ↔
      ∃ v vs, vals = v :: vs ∧ validField d v = true ∧ validVals ds vs = true := by
  cases vals with
  | nil => simp [validVals]
  | cons v vs =>
    simp only [validVals, Bool.and_eq_true, List.cons.injEq]
    constructor
    · rintro ⟨hv, hvs⟩; exact ⟨v, vs, ⟨rfl, rfl⟩, hv, hvs⟩
    · rintro ⟨v', vs', ⟨rfl, rfl⟩, hv, hvs⟩; exact ⟨hv, hvs⟩

/-- Valid field values encode to exactly `calcsize` bytes, and the
chunk-slicing loop decodes them back. -/
theorem struct_roundtrip_go (descs : List FieldDesc) (vals : List FieldVal)
    (h : validVals descs vals = true) :
    ∃ bs, structEncode descs vals = some bs ∧ bs.length = calcsize descs ∧
      structDecodeGo descs bs = some vals := by
  induction descs generalizing vals with
  | nil =>
    obtain rfl := (validVals_nil_iff vals).mp h
    exact ⟨[], rfl, rfl, rfl⟩
  | cons d ds ih =>
    obtain ⟨v, vs, rfl, hv, hvs⟩ := (validVals_cons_iff d ds vals).mp h
    obtain ⟨b, hb, hblen, hbdec⟩ := decodeField_encodeField d v hv
    obtain ⟨bs, hbs, hbslen, hbsdec⟩ := ih vs hvs
    refine ⟨b ++ bs, ?_, ?_, ?_⟩
    · simp [structEncode, hb, hbs]
    · simp [calcsize, hblen, hbslen]
    · simp only [structDecodeGo, List.take_left' hblen, List.drop_left' hblen,
        hbdec, hbsdec]

/-- Round trip through the fixed-portion codec: for every token list, a list
of valid field values encodes successfully and decodes back to itself. -/
theorem struct_roundtrip (descs : List FieldDesc) (vals : List FieldVal)
    (h : validVals descs vals = true) :
    ∃ bs, structEncode descs vals = some bs ∧ bs.length = calcsize descs ∧
      structDecode descs bs = some vals := by
  obtain ⟨bs, henc, hlen, hdec⟩ := struct_roundtrip_go descs vals h
  exact ⟨bs, henc, hlen, by simp [structDecode, hlen, hdec]⟩

/-! ## `network/packets/__init__.py` — `CCMessageRegistry` -/

/-- A Python dict key as compared by the `in` operator (`==` between keys):
an `int` key and a `str` key never compare equal. -/
inductive PyKey where
  | pstr : String → PyKey
  | pint : Nat → PyKey
deriving DecidableEq

/-- The server message classes of the packet catalog (`server.py`). -/
inductive ServerKls where
  | respLoginServerValidate
  | respGameServerLoginResp
  | getWorldChat
deriving DecidableEq

/-- The class attribute `CCMessageRegistry._messages`: an outer dict with the
two fixed keys `"client"` and `"server"` holding the per-direction tables.
The client table maps a class name to its message id (the encrypted flag is
stored on the class object, not in the table); the server table maps a
message id to its class. -/
structure CCMessages where
  client : List (String × Nat)
  server : List (Nat × ServerKls)
deriving DecidableEq

/-- The keys of the outer `_messages` dict itself — always exactly
`"client"` and `"server"`, since registrations only write the inner dicts. -/
def outerDictKeys : List PyKey := [.pstr "client", .pstr "server"]

/-- Python dict assignment on an association list: overwrite or append. -/
def assocSet {α β : Type} [DecidableEq α] : List (α × β) → α → β → List (α × β)
  | [], k, v => [(k, v)]
  | (k', v') :: rest, k, v =>
    if k' = k then (k, v) :: rest else (k', v') :: assocSet rest k v

/-- Python `dict.get`. -/
def assocGet {α β : Type} [DecidableEq α] : List (α × β) → α → Option β
  | [], _ => none
  | (k', v') :: rest, k => if k' = k then some v' else assocGet rest k

/-- `CCMessageRegistry.client_message(message_id, encrypted)` applied to a
class named `klsName`.  The duplicate check is `kls.__name__ in
cls._messages`: membership among the OUTER dict keys `"client"`/`"server"`,
not in the client table. -/
def clientMessageRegister (ms : CCMessages) (klsName : String) (mid : Nat) :
    Except String CCMessages :=
  if PyKey.pstr klsName ∈ outerDictKeys then
    .error "ValueError: Message ID is already registered."
  else .ok { ms with client := assocSet ms.client klsName mid }

/-- `CCMessageRegistry.server_message(message_id)` applied to class `kls`.
The duplicate check is `message_id in cls._messages`: it tests the `int` id
against the OUTER dict keys (two `str` keys), not against the server
table. -/
def serverMessageRegister (ms : CCMessages) (mid : Nat) (kls : ServerKls) :
    Except String CCMessages :=
  if PyKey.pint mid ∈ outerDictKeys then
    .error "ValueError: Message ID is already registered."
  else .ok { ms with server := assocSet ms.server mid kls }

/-- `CCMessageRegistry.get_server_message`. -/
def getServerMessage (ms : CCMessages) (mid : Nat) : Option ServerKls :=
  assocGet ms.server mid

/-- The registrations performed at import time by the decorators in
`client.py` and `server.py`, in source order. -/
def importRegistrations : Except String CCMessages := do
  let ms : CCMessages := ⟨[], []⟩
  let ms ← clientMessageRegister ms "ConnectLoginServer" 0x0232
  let ms ← clientMessageRegister ms "ConnectGameServer" 0x01f7
  let ms ← clientMessageRegister ms "AckEncryptionResp" 0x03ed
  let ms ← clientMessageRegister ms "GameInitComplete" 0x03f8
  let ms ← clientMessageRegister ms "Active" 0x03eb
  let ms ← clientMessageRegister ms "GetSelectChat" 0x042c
  let ms ← serverMessageRegister ms 0x01f8 .respLoginServerValidate
  let ms ← serverMessageRegister ms 0x01f9 .respGameServerLoginResp
  let ms ← serverMessageRegister ms 0x03f6 .getWorldChat
  return ms

/-- The registry contents after import (all registrations go through). -/
def registryAfterImport : CCMessages :=
  importRegistrations.toOption.getD ⟨[], []⟩

/-! ## The packet catalog layouts (`client.py` / `server.py`)

Each list is the token sequence of the class `STRUCT_FORMAT` paired with the
dataclass field annotations (which drive `on_unpack`). -/

/-- `CCMessage`, format `<HH`. -/
def ccMessageDesc : List FieldDesc := [.uint 2, .uint 2]

/-- `ConnectLoginServer`, format `<IQ512sI8s`. -/
def connectLoginServerDesc : List FieldDesc :=
  [.uint 4, .uint 8, .sstr 512, .uint 4, .sbytes 8]

/-- `ConnectGameServer`, format `<IQ156sII`. -/
def connectGameServerDesc : List FieldDesc :=
  [.uint 4, .uint 8, .sstr 156, .uint 4, .uint 4]

/-- `AckEncryptionResp`, format `<IQII`. -/
def ackEncryptionRespDesc : List FieldDesc := [.uint 4, .uint 8, .uint 4, .uint 4]

/-- `GameInitComplete`, format `<I`. -/
def gameInitCompleteDesc : List FieldDesc := [.uint 4]

/-- `Active`, format `<I`. -/
def activeDesc : List FieldDesc := [.uint 4]

/-- `GetSelectChat`, format `<II`. -/
def getSelectChatDesc : List FieldDesc := [.uint 4, .uint 4]

/-- `RespLoginServerValidate`, format `<HHHHQ32s89s129sH692s`. -/
def respLoginServerValidateDesc : List FieldDesc :=
  [.uint 2, .uint 2, .uint 2, .uint 2, .uint 8, .sstr 32, .sstr 89, .sstr 129,
    .uint 2, .sbytes 692]

/-- `RespGameServerLoginResp`, format `<HH4sQ16s`. -/
def respGameServerLoginRespDesc : List FieldDesc :=
  [.uint 2, .uint 2, .sbytes 4, .uint 8, .sbytes 16]

/-- `GetWorldChat` fixed portion, format `<HHIQ` (the `messages` field is
`init=False` and handled by `on_remaining`). -/
def getWorldChatFixedDesc : List FieldDesc := [.uint 2, .uint 2, .uint 4, .uint 8]

/-- `WorldChatMessage`, format `<QQI32s128sI`. -/
def worldChatMessageDesc : List FieldDesc :=
  [.uint 8, .uint 8, .uint 4, .cstr 32, .cstr 128, .uint 4]

/-- The registered layouts whose messages consist only of fixed fields —
every registered layout except `GetWorldChat` (0x03f6), whose `messages`
field lives in the dynamic tail. -/
def registeredFixedLayouts : List (List FieldDesc) :=
  [connectLoginServerDesc, connectGameServerDesc, ackEncryptionRespDesc,
    gameInitCompleteDesc, activeDesc, getSelectChatDesc,
    respLoginServerValidateDesc, respGameServerLoginRespDesc]

/-! ## `network/crypto/__init__.py` — `CryptoManager` -/

/-- The DES-ECB cipher object obtained from `DES.new(key, DES.MODE_ECB)` (an
external library): raw block transforms applied to whole-multiple-of-8
inputs.  Its block-cipher contract (length preservation and invertibility on
aligned input) is assumed where needed, never its internals. -/
structure BlockCipher where
  encryptRaw : List Nat → List Nat
  decryptRaw : List Nat → List Nat

/-- `CryptoManager` state: `_des_cipher`, `None` until `init` is called. -/
structure CryptoManager where
  desCipher : Option BlockCipher

/-- `CryptoManager.__init__`. -/
def CryptoManager.fresh : CryptoManager := ⟨none⟩

/-- `CryptoManager.init(key)`: installs the cipher derived from the key. -/
def CryptoManager.keyInit (cm : CryptoManager) (cipher : BlockCipher) :
    CryptoManager :=
  { cm with desCipher := some cipher }

/-- `CryptoManager.encrypt`: raises `RuntimeError` when uninitialized;
otherwise transforms the largest multiple-of-8 front of the input and passes
the tail through unchanged.  The method never writes `self`, so the state
component of the result is the input state. -/
def CryptoManager.encrypt (cm : CryptoManager) (data : List Nat) :
    Except String (List Nat) × CryptoManager :=
  match cm.desCipher with
  | none => (.error "RuntimeError: CryptoManager has not been initialized yet.", cm)
  | some c =>
    let alignedData := data.take (data.length / 8 * 8)
    let tailData := data.drop (data.length / 8 * 8)
    (.ok (c.encryptRaw alignedData ++ tailData), cm)

/-- `CryptoManager.decrypt`, mirror of `encrypt`. -/
def CryptoManager.decrypt (cm : CryptoManager) (data : List Nat) :
    Except String (List Nat) × CryptoManager :=
  match cm.desCipher with
  | none => (.error "RuntimeError: CryptoManager has not been initialized yet.", cm)
  | some c =>
    let alignedData := data.take (data.length / 8 * 8)
    let tailData := data.drop (data.length / 8 * 8)
    (.ok (c.decryptRaw alignedData ++ tailData), cm)

/-- The contract of the external DES-ECB primitive on whole-block input:
output length equals input length, and decryption inverts encryption. -/
def BlockCipher.lawful (c : BlockCipher) : Prop :=
  (∀ b : List Nat, b.length % 8 = 0 → (c.encryptRaw b).length = b.length) ∧
  (∀ b : List Nat, b.length % 8 = 0 → c.decryptRaw (c.encryptRaw b) = b)

/-! ## `network/network_client.py` — frame extraction and dispatch -/

/-- Read the little-endian 16-bit value at offset `i` of the buffer
(`struct.unpack("<HH", buf[:4])` reads offsets 0 and 2). -/
def le16At (buf : List Nat) (i : Nat) : Nat :=
  buf.getD i 0 + 256 * buf.getD (i + 1) 0

/-- The critical section of `NetworkClient.pick_message` (lines 170-179):
frame-boundary detection on the receive buffer.  Returns the extracted
`(message_id, frame bytes)` if a complete frame is buffered, plus the new
buffer contents. -/
def extractFrame (buf : List Nat) : Option (Nat × List Nat) × List Nat :=
  if buf.length < 4 then (none, buf)
  else
    let messageSize := le16At buf 0
    let messageId := le16At buf 2
    if buf.length < messageSize then (none, buf)
    else (some (messageId, buf.take messageSize), buf.drop messageSize)

/-- The rest of `NetworkClient.pick_message`: resolve the extracted frame id
in the server registry; an unregistered id yields no packet (the frame stays
consumed). -/
def pickMessage (ms : CCMessages) (buf : List Nat) :
    Option (ServerKls × List Nat) × List Nat :=
  match extractFrame buf with
  | (none, b) => (none, b)
  | (some (mid, packetData), rest) =>
    match getServerMessage ms mid with
    | none => (none, rest)
    | some kls => (some (kls, packetData), rest)

/-- The handler table built by `NetworkClient.init` from the `handler_*`
attribute scan: the class defines exactly `handler_03f6`. -/
def handlerIds : List Nat := [0x03f6]

/-- One iteration of the dispatch part of `run_main_loop`: a `None` packet is
skipped; otherwise the handler keyed by the packet `message_id` (the
little-endian 16-bit field at offset 2 of the frame) runs if present.
Returns the id of the handler invoked, if any, and the new buffer. -/
def dispatchOnce (ms : CCMessages) (buf : List Nat) : Option Nat × List Nat :=
  match pickMessage ms buf with
  | (none, b) => (none, b)
  | (some (_, packetData), b) =>
    let mid := le16At packetData 2
    (if handlerIds.contains mid then some mid else none, b)

/-! ## `GetWorldChat` / `WorldChatMessage` decoding and `handler_03f6` -/

/-- `WorldChatMessage.sizeof()`: `struct.calcsize("<QQI32s128sI")` minus the
lengths of the `unknown_data` attached to the `CString` annotation instances.
Those are the class-level `CString("", 32)` / `CString("", 128)` objects,
whose `unknown_data` is the empty bytes, so nothing is deducted. -/
def worldChatMessageSizeof : Nat := calcsize worldChatMessageDesc - (0 + 0)

/-- A decoded `WorldChatMessage`. -/
structure WCM where
  player_id : Nat
  unknown_1 : Nat
  unknown_2 : Nat
  player_name : List Nat
  message : List Nat
  unknown_3 : Nat
deriving DecidableEq

/-- `WorldChatMessage.from_bytes` (all fields fixed; leftover bytes beyond the
fixed portion are logged and ignored). -/
def wcmFromBytes (data : List Nat) : Option WCM :=
  match structDecode worldChatMessageDesc data with
  | some [.vint pid, .vint u1, .vint u2, .vstr pn, .vstr msg, .vint u3] =>
    some ⟨pid, u1, u2, pn, msg, u3⟩
  | _ => none

/-- A decoded `GetWorldChat` instance.  `messages` is declared
`field(init=False)`: it stays unassigned (`none`) unless `on_remaining`
runs, which happens only when bytes remain after the fixed portion. -/
structure GetWorldChatInst where
  message_size : Nat
  message_id : Nat
  chat_type : Nat
  new_message_count : Nat
  messages : Option (List WCM)
deriving DecidableEq

/-- The `GetWorldChat.on_remaining` loop: decode `count` records of
`WorldChatMessage.sizeof()` bytes each off the front of the remaining
bytes. -/
def worldChatTailDecode : Nat → List Nat → Option (List WCM)
  | 0, _ => some []
  | k + 1, remaining =>
    match wcmFromBytes (remaining.take worldChatMessageSizeof),
      worldChatTailDecode k (remaining.drop worldChatMessageSizeof) with
    | some m, some ms => some (m :: ms)
    | _, _ => none

/-- `GetWorldChat.from_bytes`: the fixed portion `<HHIQ`, then — only when
bytes remain — `on_remaining` decodes `new_message_count` records; bytes left
after that are logged and ignored. -/
def getWorldChatFromBytes (data : List Nat) : Option GetWorldChatInst :=
  match structDecode getWorldChatFixedDesc data with
  | some [.vint ms, .vint mid, .vint ct, .vint cnt] =>
    let remaining := data.drop (calcsize getWorldChatFixedDesc)
    if remaining.isEmpty then some ⟨ms, mid, ct, cnt, none⟩
    else (worldChatTailDecode cnt remaining).map
      (fun l => ⟨ms, mid, ct, cnt, some l⟩)
  | _ => none

/-- `GetWorldChat.to_bytes`: the fixed fields through `struct.pack`, then the
bytes of `on_packing_remaining` — which `GetWorldChat` does not override, so
the base-class default `b""` is appended and `messages` is never encoded. -/
def getWorldChatToBytes (g : GetWorldChatInst) : Option (List Nat) :=
  (structEncode getWorldChatFixedDesc
    [.vint g.message_size, .vint g.message_id, .vint g.chat_type,
      .vint g.new_message_count]).map (fun bs => bs ++ [])

/-- `NetworkClient.handler_03f6` applied to a packet whose `messages` list
decoded to `msgs`: it iterates `packet.messages[::-1]` and prints one
`[player_name] message` line per record, in that order. -/
def handler03f6Lines (msgs : List WCM) : List (List Nat × List Nat) :=
  msgs.reverse.map (fun m => (m.player_name, m.message))

/-! ## Claim C1 — `CString` decode/re-encode fidelity -/

/-- Claim C1, counterexample.  Decoding `b"abc\x00extra"` does yield the
logical string `"abc"` with unknown trailing data `b"extra"`, but re-encoding
the decoded value produces `b"abc\x00"` — `to_bytes` never re-emits
`unknown_data` — so the original bytes are not reproduced.  Moreover, with a
second zero byte present (`b"a\x00b\x00c"`) the unknown trailing data holds
only the bytes between the first and second zero (`b"b"`), not everything
after the first zero. -/
theorem cstring_reencode_drops_trailing_data :
    cstringFromBytes [97, 98, 99, 0, 101, 120, 116, 114, 97] =
      .ok ⟨[97, 98, 99], 3, [101, 120, 116, 114, 97]⟩ ∧
    cstringToBytes ⟨[97, 98, 99], 3, [101, 120, 116, 114, 97]⟩ = [97, 98, 99, 0] ∧
    [97, 98, 99, 0] ≠ [97, 98, 99, 0, 101, 120, 116, 114, 97] ∧
    cstringFromBytes [97, 0, 98, 0, 99] = .ok ⟨[97], 1, [98]⟩ ∧
    [98] ≠ [98, 0, 99] :=
  ⟨rfl, rfl, by decide, rfl, by decide⟩

/-- Claim C1, amended.  For input whose bytes before the first zero are
nonzero and valid UTF-8: decoding yields the UTF-8 string of the bytes before
the first zero, with unknown trailing data the bytes strictly between the
first and the second zero (all bytes after the first zero when no second zero
occurs); re-encoding the decoded value produces the pre-zero bytes followed
by one zero byte, discarding the unknown trailing data — so re-encoding
reproduces the input exactly when nothing followed the first zero. -/
theorem cstring_decode_first_zero_split (pre post s : List Nat)
    (hne : ∀ b ∈ pre, b ≠ 0) (hdec : utf8Decode pre = some s) :
    cstringFromBytes (pre ++ 0 :: post) =
      .ok ⟨s, pre.length, post.takeWhile (· != 0)⟩ ∧
    cstringToBytes ⟨s, pre.length, post.takeWhile (· != 0)⟩ = pre ++ [0] := by
  constructor
  · obtain ⟨t, ht⟩ := splitOnZero_head_takeWhile post
    have hsl := utf8Decode_length_le pre s hdec
    simp only [cstringFromBytes, splitOnZero_append_zero pre post hne, ht,
      List.headD_cons, hdec, cstringNew]
    rw [if_neg (by omega)]
  · simp only [cstringToBytes, utf8Encode_of_decode pre s hdec]

/-- Witness for `cstring_decode_first_zero_split` at `b"hi\x00\x01\x02"`. -/
theorem cstring_decode_first_zero_split_witness :
    cstringFromBytes ([104, 105] ++ 0 :: [1, 2]) =
      .ok ⟨[104, 105], [104, 105].length, [1, 2].takeWhile (· != 0)⟩ ∧
    cstringToBytes ⟨[104, 105], [104, 105].length, [1, 2].takeWhile (· != 0)⟩ =
      [104, 105] ++ [0] :=
  cstring_decode_first_zero_split [104, 105] [1, 2] [104, 105]
    (by decide) (by decide)

/-! ## Claim C10 — `CString` decode with no zero byte -/

/-- Claim C10, counterexample.  The input `b"\xff"` contains no zero byte,
yet decoding it fails with `UnicodeDecodeError`, not with the claimed
index-out-of-range error: the source evaluates `items[0].decode("utf-8")`
before the `items[1]` subscript, and `b"\xff"` is not valid UTF-8. -/
theorem cstring_zero_free_invalid_utf8_not_index_error :
    cstringFromBytes [255] = .error "UnicodeDecodeError" ∧
    "UnicodeDecodeError" ≠ "IndexError: list index out of range" :=
  ⟨rfl, by decide⟩

/-- Claim C10, amended.  On input containing no zero byte at all,
`CString.from_bytes` always fails rather than yielding the whole input as
the logical string: with `IndexError` from the `items[1]` subscript when the
input is valid UTF-8 (the constructor check cannot fire, since a decoded
string never has more characters than bytes), and with `UnicodeDecodeError`
— raised earlier, by `items[0].decode("utf-8")` — when it is not.  Either
way no value is returned, so every successful decode requires at least one
zero byte in its input. -/
theorem cstring_decode_zero_free_raises (b : List Nat) (h : ∀ x ∈ b, x ≠ 0) :
    (∀ s, utf8Decode b = some s →
      cstringFromBytes b = .error "IndexError: list index out of range") ∧
    (utf8Decode b = none → cstringFromBytes b = .error "UnicodeDecodeError") ∧
    (∀ c, cstringFromBytes b ≠ .ok c) := by
  have hone : splitOnZero b = [b] := splitOnZero_of_ne_zero b h
  refine ⟨?_, ?_, ?_⟩
  · intro s hs
    have hsl := utf8Decode_length_le b s hs
    simp only [cstringFromBytes, hone, List.headD_cons, hs, cstringNew]
    rw [if_neg (by omega)]
  · intro hs
    simp only [cstringFromBytes, hone, List.headD_cons, hs]
  · intro c hc
    match hs : utf8Decode b with
    | some s =>
      have hsl := utf8Decode_length_le b s hs
      simp only [cstringFromBytes, hone, List.headD_cons, hs, cstringNew] at hc
      rw [if_neg (by omega)] at hc
      exact absurd hc (by simp)
    | none =>
      simp only [cstringFromBytes, hone, List.headD_cons, hs] at hc
      exact absurd hc (by simp)

/-- Witness for `cstring_decode_zero_free_raises` at `b"abc"` (zero-free and
valid UTF-8, so the `IndexError` branch applies). -/
theorem cstring_decode_zero_free_raises_witness :
    (∀ s, utf8Decode [97, 98, 99] = some s →
      cstringFromBytes [97, 98, 99] = .error "IndexError: list index out of range") ∧
    (utf8Decode [97, 98, 99] = none →
      cstringFromBytes [97, 98, 99] = .error "UnicodeDecodeError") ∧
    (∀ c, cstringFromBytes [97, 98, 99] ≠ .ok c) :=
  cstring_decode_zero_free_raises [97, 98, 99] (by decide)

/-! ## Claim C7 — fixed-size string padding -/

/-- Claim C7, counterexample.  `SizedString` counts characters while
`to_bytes` UTF-8 encodes: the one-character string `"é"` with declared
size 2 passes the size check, is NUL-padded to 2 characters, and encodes to 3
bytes, not exactly 2. -/
theorem sizedstring_nonascii_encodes_longer :
    sizedStringEncode [233] 2 = some [195, 169, 0] ∧
    ([195, 169, 0] : List Nat).length ≠ 2 :=
  ⟨rfl, by decide⟩

/-- Claim C7, amended.  For ASCII string values (each character below 128):
encoding a value no longer than the declared size `n` zero-pads to exactly
`n` bytes, and encoding a value longer than `n` fails with the
`FieldTooLarge` error (`ValueError` in `SizedString.__new__`, modelled by
`none`). -/
theorem sizedstring_encode_pads_or_raises (s : List Nat) (n : Nat)
    (hascii : ∀ c ∈ s, c < 128) :
    (s.length ≤ n →
      sizedStringEncode s n = some (s ++ List.replicate (n - s.length) 0) ∧
      (s ++ List.replicate (n - s.length) 0).length = n) ∧
    (s.length > n → sizedStringEncode s n = none) := by
  constructor
  · intro hlen
    have hall : ∀ c ∈ s ++ List.replicate (n - s.length) 0, c < 128 := by
      intro c hc
      rcases List.mem_append.mp hc with hc | hc
      · exact hascii c hc
      · simp [List.eq_of_mem_replicate hc]
    constructor
    · simp only [sizedStringEncode, sizedStringNew]
      rw [if_neg (by omega)]
      simp [utf8Encode_ascii _ hall]
    · simp; omega
  · intro hlen
    simp [sizedStringEncode, sizedStringNew, hlen]

/-- Witness for `sizedstring_encode_pads_or_raises` at `"h"`, size 3. -/
theorem sizedstring_encode_pads_or_raises_witness :
    (([104] : List Nat).length ≤ 3 →
      sizedStringEncode [104] 3 = some ([104] ++ List.replicate (3 - ([104] : List Nat).length) 0) ∧
      (([104] : List Nat) ++ List.replicate (3 - ([104] : List Nat).length) 0).length = 3) ∧
    (([104] : List Nat).length > 3 → sizedStringEncode [104] 3 = none) :=
  sizedstring_encode_pads_or_raises [104] 3 (by decide)

/-! ## Claim C3 — per-layout round trip -/

/-- Claim C3, amended.  For every registered layout other than `GetWorldChat`
(0x03f6) — i.e. every registered layout made only of fixed fields — any
instance whose field values satisfy the size/range/shape constraints
(`validVals`) encodes successfully and decodes back to exactly the same
field values. -/
theorem registered_fixed_layout_roundtrip (L : List FieldDesc)
    (_hL : L ∈ registeredFixedLayouts) (vals : List FieldVal)
    (h : validVals L vals = true) :
    ∃ bs, structEncode L vals = some bs ∧ structDecode L bs = some vals := by
  obtain ⟨bs, henc, -, hdec⟩ := struct_roundtrip L vals h
  exact ⟨bs, henc, hdec⟩

/-- Witness for `registered_fixed_layout_roundtrip` on the `ConnectGameServer`
layout with realistic field values. -/
theorem registered_fixed_layout_roundtrip_witness :
    ∃ bs, structEncode connectGameServerDesc
        [.vint 0, .vint 12345, .vstr [107, 101, 121], .vint 77, .vint 3] = some bs ∧
      structDecode connectGameServerDesc bs =
        some [.vint 0, .vint 12345, .vstr [107, 101, 121], .vint 77, .vint 3] :=
  registered_fixed_layout_roundtrip connectGameServerDesc (by decide)
    [.vint 0, .vint 12345, .vstr [107, 101, 121], .vint 77, .vint 3] (by decide)

/-- Claim C3, counterexample.  The registered layout 0x03f6 (`GetWorldChat`)
breaks the round trip: `GetWorldChat` does not override
`on_packing_remaining`, so `to_bytes` emits only the fixed 16 bytes and drops
the `messages` tail; decoding that encoding leaves `messages` unset.  The
instance used satisfies all size constraints. -/
theorem getWorldChat_roundtrip_fails :
    (getWorldChatToBytes ⟨20, 1014, 7, 1, some [⟨1, 2, 3, [97], [98], 4⟩]⟩).bind
        getWorldChatFromBytes = some ⟨20, 1014, 7, 1, none⟩ ∧
    (⟨20, 1014, 7, 1, none⟩ : GetWorldChatInst) ≠
      ⟨20, 1014, 7, 1, some [⟨1, 2, 3, [97], [98], 4⟩]⟩ :=
  ⟨rfl, by decide⟩

/-! ## Claim C8 — the 0x03f6 repeated-record tail and `handler_03f6` -/

theorem decodeField_uint_leBytes (w v : Nat) (h : v < 256 ^ w) :
    decodeField (.uint w) (leBytes w v) = some (.vint v) := by
  simp [decodeField, leNat_leBytes w v h]

theorem structDecodeGo_cons_append (d : FieldDesc) (ds : List FieldDesc)
    (b rest : List Nat) (hb : b.length = fieldWidth d) :
    structDecodeGo (d :: ds) (b ++ rest) =
      (decodeField d b).bind (fun v => (structDecodeGo ds rest).map (v :: ·)) := by
  simp only [structDecodeGo, List.take_left' hb, List.drop_left' hb]
  cases decodeField d b <;> cases structDecodeGo ds rest <;> rfl

theorem worldChatMessageSizeof_eq : worldChatMessageSizeof = 184 := rfl

/-- Claim C8, amended.  A chat record occupies `WorldChatMessage.sizeof()`
= 184 bytes (`struct.calcsize("<QQI32s128sI")`, with nothing deducted for the
annotation instances' empty `unknown_data`), not 185.  Decoding a 0x03f6
frame whose fixed portion declares `new_message_count = 2` and whose body is
exactly two 184-byte records yields exactly those two records in encoded
order, and `handler_03f6` prints the decoded list in reverse order. -/
theorem getWorldChat_decodes_two_records (ms mid ct : Nat)
    (hms : ms < 2 ^ 16) (hmid : mid < 2 ^ 16) (hct : ct < 2 ^ 32)
    (r1 r2 : List Nat) (m1 m2 : WCM)
    (hr1 : r1.length = 184) (hr2 : r2.length = 184)
    (hm1 : wcmFromBytes r1 = some m1) (hm2 : wcmFromBytes r2 = some m2) :
    getWorldChatFromBytes
        ((leBytes 2 ms ++ leBytes 2 mid ++ leBytes 4 ct ++ leBytes 8 2) ++ (r1 ++ r2)) =
      some ⟨ms, mid, ct, 2, some [m1, m2]⟩ ∧
    handler03f6Lines [m1, m2] =
      [(m2.player_name, m2.message), (m1.player_name, m1.message)] := by
  have hhdr : (leBytes 2 ms ++ leBytes 2 mid ++ leBytes 4 ct ++ leBytes 8 2).length = 16 := by
    simp [leBytes_length]
  have hbody : (r1 ++ r2).length = 368 := by simp [hr1, hr2]
  have htail : worldChatTailDecode 2 (r1 ++ r2) = some [m1, m2] := by
    have h1 : (r1 ++ r2).take worldChatMessageSizeof = r1 := by
      rw [worldChatMessageSizeof_eq, List.take_left' hr1]
    have h2 : (r1 ++ r2).drop worldChatMessageSizeof = r2 := by
      rw [worldChatMessageSizeof_eq, List.drop_left' hr1]
    have h3 : r2.take worldChatMessageSizeof = r2 := by
      rw [worldChatMessageSizeof_eq]
      exact List.take_of_length_le (by omega)
    have h4 : worldChatTailDecode 0 (r2.drop worldChatMessageSizeof) = some [] := rfl
    simp only [worldChatTailDecode, h1, h2, h3, h4, hm1, hm2]
  have hfixed : structDecode getWorldChatFixedDesc
      ((leBytes 2 ms ++ leBytes 2 mid ++ leBytes 4 ct ++ leBytes 8 2) ++ (r1 ++ r2)) =
      some [.vint ms, .vint mid, .vint ct, .vint 2] := by
    have hlen : ((leBytes 2 ms ++ leBytes 2 mid ++ leBytes 4 ct ++ leBytes 8 2) ++
        (r1 ++ r2)).length = 384 := by
      simp only [List.length_append, hhdr, hbody]
    rw [structDecode, hlen, if_neg (by norm_num [calcsize, getWorldChatFixedDesc, fieldWidth])]
    rw [show (leBytes 2 ms ++ leBytes 2 mid ++ leBytes 4 ct ++ leBytes 8 2) ++ (r1 ++ r2) =
      leBytes 2 ms ++ (leBytes 2 mid ++ (leBytes 4 ct ++ (leBytes 8 2 ++ (r1 ++ r2)))) by
        simp [List.append_assoc]]
    rw [show getWorldChatFixedDesc = [.uint 2, .uint 2, .uint 4, .uint 8] from rfl,
      structDecodeGo_cons_append (.uint 2) _ _ _ (leBytes_length 2 ms),
      structDecodeGo_cons_append (.uint 2) _ _ _ (leBytes_length 2 mid),
      structDecodeGo_cons_append (.uint 4) _ _ _ (leBytes_length 4 ct),
      structDecodeGo_cons_append (.uint 8) _ _ _ (leBytes_length 8 2),
      decodeField_uint_leBytes 2 ms hms, decodeField_uint_leBytes 2 mid hmid,
      decodeField_uint_leBytes 4 ct hct,
      decodeField_uint_leBytes 8 2 (by norm_num)]
    rfl
  constructor
  · have hdrop : ((leBytes 2 ms ++ leBytes 2 mid ++ leBytes 4 ct ++ leBytes 8 2) ++
        (r1 ++ r2)).drop (calcsize getWorldChatFixedDesc) = r1 ++ r2 := by
      rw [show calcsize getWorldChatFixedDesc = 16 from rfl, List.drop_left' hhdr]
    have hnil : r1 ++ r2 ≠ [] := by
      intro hc
      rw [hc] at hbody
      simp at hbody
    have hne : (r1 ++ r2).isEmpty = false := by
      cases hrr : r1 ++ r2 with
      | nil => exact absurd hrr hnil
      | cons a t => rfl
    simp only [getWorldChatFromBytes, hfixed, hdrop, hne, htail]
    rfl
  · rfl

set_option maxRecDepth 8000 in
/-- Witness for `getWorldChat_decodes_two_records`: two all-zero 184-byte
records. -/
theorem getWorldChat_decodes_two_records_witness :
    getWorldChatFromBytes
        ((leBytes 2 390 ++ leBytes 2 1014 ++ leBytes 4 7 ++ leBytes 8 2) ++
          (List.replicate 184 0 ++ List.replicate 184 0)) =
      some ⟨390, 1014, 7, 2, some [⟨0, 0, 0, [], [], 0⟩, ⟨0, 0, 0, [], [], 0⟩]⟩ ∧
    handler03f6Lines [(⟨0, 0, 0, [], [], 0⟩ : WCM), ⟨0, 0, 0, [], [], 0⟩] =
      [([], []), ([], [])] :=
  getWorldChat_decodes_two_records 390 1014 7 (by decide) (by decide) (by decide)
    (List.replicate 184 0) (List.replicate 184 0) ⟨0, 0, 0, [], [], 0⟩
    ⟨0, 0, 0, [], [], 0⟩ (by decide) (by decide) (by decide) (by decide)

set_option maxRecDepth 8000 in
/-- Claim C8, counterexample.  With two 185-byte records in the body (as the
claim words it), the decoder still slices 184-byte chunks: the second decoded
record starts one byte early, so the decoded list is not the two records
contained in the body — here the second contained record has `player_id` 2
but the second decoded record has `player_id` 521. -/
theorem getWorldChat_185_byte_records_misaligned :
    (getWorldChatFromBytes ((leBytes 2 390 ++ leBytes 2 1014 ++ leBytes 4 7 ++
        leBytes 8 2) ++ ((List.replicate 184 0 ++ [9]) ++ (2 :: List.replicate 184 0)))).map
        (fun g => g.messages) =
      some (some [⟨0, 0, 0, [], [], 0⟩, ⟨521, 0, 0, [], [], 0⟩]) ∧
    (List.replicate 184 0 ++ [9]).length = 185 ∧
    (2 :: List.replicate 184 0).length = 185 ∧
    wcmFromBytes (2 :: List.replicate 184 0) = some ⟨2, 0, 0, [], [], 0⟩ ∧
    ([(⟨0, 0, 0, [], [], 0⟩ : WCM), ⟨521, 0, 0, [], [], 0⟩] : List WCM) ≠
      [⟨0, 0, 0, [], [], 0⟩, ⟨2, 0, 0, [], [], 0⟩] := by
  refine ⟨by decide, by decide, by decide, by decide, by decide⟩

/-! ## Claim C2 — duplicate identifiers in the packet registry -/

/-- Claim C2 (the code contradicts it).  The duplicate checks in
`CCMessageRegistry` test membership in the OUTER `_messages` dict — whose
keys are always the two strings `"client"` and `"server"` — instead of the
per-direction tables.  A server-side check compares an `int` id against
`str` keys and never fires, so registering the same `(server, identifier)`
pair twice raises nothing and silently overwrites; likewise two client
classes (not named `"client"`/`"server"`) carrying the same identifier both
register. -/
theorem duplicate_identifier_never_rejected :
    (∀ (ms : CCMessages) (mid : Nat) (k1 k2 : ServerKls),
      ∃ ms1 ms2, serverMessageRegister ms mid k1 = .ok ms1 ∧
        serverMessageRegister ms1 mid k2 = .ok ms2) ∧
    (∀ (ms : CCMessages) (n1 n2 : String) (mid : Nat),
      n1 ≠ "client" → n1 ≠ "server" → n2 ≠ "client" → n2 ≠ "server" →
      ∃ ms1 ms2, clientMessageRegister ms n1 mid = .ok ms1 ∧
        clientMessageRegister ms1 n2 mid = .ok ms2) := by
  constructor
  · intro ms mid k1 k2
    exact ⟨{ ms with server := assocSet ms.server mid k1 },
      { ms with server := assocSet (assocSet ms.server mid k1) mid k2 },
      by simp [serverMessageRegister, outerDictKeys],
      by simp [serverMessageRegister, outerDictKeys]⟩
  · intro ms n1 n2 mid h1 h2 h3 h4
    exact ⟨{ ms with client := assocSet ms.client n1 mid },
      { ms with client := assocSet (assocSet ms.client n1 mid) n2 mid },
      by simp [clientMessageRegister, outerDictKeys, h1, h2],
      by simp [clientMessageRegister, outerDictKeys, h3, h4]⟩

/-- Witness for `duplicate_identifier_never_rejected`: register server id
0x01f8 twice onto the real post-import registry, and client id 0x0232 under
two fresh class names. -/
theorem duplicate_identifier_never_rejected_witness :
    (∃ ms1 ms2,
      serverMessageRegister registryAfterImport 0x01f8 .respLoginServerValidate = .ok ms1 ∧
      serverMessageRegister ms1 0x01f8 .getWorldChat = .ok ms2) ∧
    (∃ ms1 ms2,
      clientMessageRegister registryAfterImport "Foo" 0x0232 = .ok ms1 ∧
      clientMessageRegister ms1 "Bar" 0x0232 = .ok ms2) :=
  ⟨duplicate_identifier_never_rejected.1 registryAfterImport 0x01f8 _ _,
    duplicate_identifier_never_rejected.2 registryAfterImport "Foo" "Bar" 0x0232
      (by decide) (by decide) (by decide) (by decide)⟩

/-! ## Claim C4 — crypto round trip and tail pass-through -/

/-- Claim C4, confirmed.  Once the session is keyed, for any byte sequence
`x`: `encrypt` transforms exactly the largest multiple-of-8 front of `x`
through the cipher and leaves the final `len(x) mod 8` bytes in place after
it, the output has the length of `x`, and `decrypt (encrypt x) = x` byte for
byte — assuming only the external DES-ECB contract (`BlockCipher.lawful`). -/
theorem crypto_roundtrip (cm : CryptoManager) (c : BlockCipher)
    (hcm : cm.desCipher = some c) (hlaw : c.lawful) (x : List Nat) :
    ∃ y, cm.encrypt x = (.ok y, cm) ∧
      y.take (x.length / 8 * 8) = c.encryptRaw (x.take (x.length / 8 * 8)) ∧
      y.drop (x.length / 8 * 8) = x.drop (x.length / 8 * 8) ∧
      y.length = x.length ∧
      cm.decrypt y = (.ok x, cm) := by
  obtain ⟨hlawlen, hlawinv⟩ := hlaw
  set k := x.length / 8 * 8 with hk
  have hkle : k ≤ x.length := Nat.div_mul_le_self x.length 8
  have htake : (x.take k).length = k := by simp [List.length_take]; omega
  have hmod : (x.take k).length % 8 = 0 := by rw [htake]; omega
  have hElen : (c.encryptRaw (x.take k)).length = k := by rw [hlawlen _ hmod, htake]
  refine ⟨c.encryptRaw (x.take k) ++ x.drop k, ?_, ?_, ?_, ?_, ?_⟩
  · simp only [CryptoManager.encrypt, hcm]
  · rw [List.take_left' hElen]
  · rw [List.drop_left' hElen]
  · simp [hElen]; omega
  · have hylen : (c.encryptRaw (x.take k) ++ x.drop k).length = x.length := by
      simp [hElen]; omega
    simp only [CryptoManager.decrypt, hcm, hylen, ← hk, List.take_left' hElen,
      List.drop_left' hElen, hlawinv _ hmod, List.take_append_drop]

/-- Witness for `crypto_roundtrip`: the identity cipher (which satisfies the
block contract) on a 10-byte input. -/
theorem crypto_roundtrip_witness :
    ∃ y, (CryptoManager.mk (some ⟨fun b => b, fun b => b⟩)).encrypt
        [1, 2, 3, 4, 5, 6, 7, 8, 9, 10] =
      (.ok y, CryptoManager.mk (some ⟨fun b => b, fun b => b⟩)) ∧
      y.take (([1, 2, 3, 4, 5, 6, 7, 8, 9, 10] : List Nat).length / 8 * 8) =
        (fun (b : List Nat) => b)
          ([1, 2, 3, 4, 5, 6, 7, 8, 9, 10].take
            (([1, 2, 3, 4, 5, 6, 7, 8, 9, 10] : List Nat).length / 8 * 8)) ∧
      y.drop (([1, 2, 3, 4, 5, 6, 7, 8, 9, 10] : List Nat).length / 8 * 8) =
        [1, 2, 3, 4, 5, 6, 7, 8, 9, 10].drop
          (([1, 2, 3, 4, 5, 6, 7, 8, 9, 10] : List Nat).length / 8 * 8) ∧
      y.length = ([1, 2, 3, 4, 5, 6, 7, 8, 9, 10] : List Nat).length ∧
      (CryptoManager.mk (some ⟨fun b => b, fun b => b⟩)).decrypt y =
        (.ok [1, 2, 3, 4, 5, 6, 7, 8, 9, 10],
          CryptoManager.mk (some ⟨fun b => b, fun b => b⟩)) :=
  crypto_roundtrip _ _ rfl ⟨fun _ _ => rfl, fun _ _ => rfl⟩
    [1, 2, 3, 4, 5, 6, 7, 8, 9, 10]

/-! ## Claim C9 — crypto before initialization -/

/-- Claim C9, confirmed.  With no key installed (`_des_cipher is None`), both
`encrypt` and `decrypt` raise `RuntimeError` on any input, and the session
state is unchanged. -/
theorem crypto_uninitialized_raises (cm : CryptoManager)
    (h : cm.desCipher = none) (data : List Nat) :
    cm.encrypt data =
      (.error "RuntimeError: CryptoManager has not been initialized yet.", cm) ∧
    cm.decrypt data =
      (.error "RuntimeError: CryptoManager has not been initialized yet.", cm) := by
  simp [CryptoManager.encrypt, CryptoManager.decrypt, h]

/-- Witness for `crypto_uninitialized_raises` on a fresh manager. -/
theorem crypto_uninitialized_raises_witness :
    CryptoManager.fresh.encrypt [1, 2, 3] =
      (.error "RuntimeError: CryptoManager has not been initialized yet.",
        CryptoManager.fresh) ∧
    CryptoManager.fresh.decrypt [1, 2, 3] =
      (.error "RuntimeError: CryptoManager has not been initialized yet.",
        CryptoManager.fresh) :=
  crypto_uninitialized_raises CryptoManager.fresh rfl [1, 2, 3]

/-! ## Claim C5 — one frame-extraction attempt -/

/-- Claim C5, confirmed.  One extraction attempt on the receive buffer: with
fewer than 4 bytes buffered, or with the declared little-endian 16-bit total
length exceeding the buffered length, nothing is extracted and the buffer is
unchanged; otherwise exactly the first declared-length bytes leave the front
of the buffer as one frame and the rest stays buffered. -/
theorem frame_extraction_attempt (buf : List Nat) :
    (buf.length < 4 → extractFrame buf = (none, buf)) ∧
    (4 ≤ buf.length → buf.length < le16At buf 0 → extractFrame buf = (none, buf)) ∧
    (4 ≤ buf.length → le16At buf 0 ≤ buf.length →
      ∃ frame rest, extractFrame buf = (some (le16At buf 2, frame), rest) ∧
        frame.length = le16At buf 0 ∧ frame ++ rest = buf) := by
  refine ⟨?_, ?_, ?_⟩
  · intro h
    simp [extractFrame, h]
  · intro h4 hlen
    simp only [extractFrame]
    rw [if_neg (by omega), if_pos hlen]
  · intro h4 hlen
    refine ⟨buf.take (le16At buf 0), buf.drop (le16At buf 0), ?_, ?_,
      List.take_append_drop _ _⟩
    · simp only [extractFrame]
      rw [if_neg (by omega), if_neg (by omega)]
    · simp [List.length_take]
      omega

/-- Witness for `frame_extraction_attempt`: a 5-byte buffer declaring a
5-byte frame is extracted whole. -/
theorem frame_extraction_attempt_witness :
    ∃ frame rest, extractFrame [5, 0, 7, 0, 9] =
      (some (le16At [5, 0, 7, 0, 9] 2, frame), rest) ∧
      frame.length = le16At [5, 0, 7, 0, 9] 0 ∧ frame ++ rest = [5, 0, 7, 0, 9] :=
  (frame_extraction_attempt [5, 0, 7, 0, 9]).2.2 (by decide) (by decide)

/-! ## Claim C6 — unknown identifier frames are dropped -/

/-- Claim C6, confirmed.  A complete buffered frame whose identifier is not in
the server direction of the (post-import) registry is consumed from the front
of the buffer, no packet is produced and hence no handler runs, and the code
path raises nothing (`pick_message` just logs and returns `None`). -/
theorem unknown_identifier_dropped (buf : List Nat)
    (h4 : 4 ≤ buf.length) (hlen : le16At buf 0 ≤ buf.length)
    (hunk : getServerMessage registryAfterImport (le16At buf 2) = none) :
    dispatchOnce registryAfterImport buf = (none, buf.drop (le16At buf 0)) := by
  simp only [dispatchOnce, pickMessage, extractFrame]
  rw [if_neg (by omega), if_neg (by omega)]
  simp only [hunk]

/-- Witness for `unknown_identifier_dropped`: a 4-byte frame with the
unregistered identifier 0x0909. -/
theorem unknown_identifier_dropped_witness :
    dispatchOnce registryAfterImport [4, 0, 9, 9] =
      (none, ([4, 0, 9, 9] : List Nat).drop (le16At [4, 0, 9, 9] 0)) :=
  unknown_identifier_dropped [4, 0, 9, 9] (by decide) (by decide) (by decide)

end CastleClash
